import Mathlib

/-!
Verification of the `point_set` repository (src/lib.rs): a set of 2D integer
points stored in a flat bit array, addressed through a Cantor-style pairing
function composed with a zig-zag ("naturalize") encoding of signed integers.

The pure functions `naturalize`, `denaturalize`, `cantor_pairing` and
`cantor_unpairing` are translated from src/lib.rs over unbounded integers
(`Int`/`Nat`); machine-width effects of the Rust `i64`/`u64` arithmetic are
modelled separately by `naturalizeChecked`, `cantor_pairingChecked` and
`cantor_unpairingChecked`, which return `none` exactly where the Rust debug
build would panic with an arithmetic overflow.

The external bit-storage collaborator (`bits::BitArray`, not part of this
repository's sources) is modelled from the spec's interface contract.
-/

/-- Translated from `naturalize` in src/lib.rs:
`let mut base = (n * 2).abs(); if n < 0 { base -= 1 } base as u64`. -/
def naturalize (n : Int) : Nat :=
  let base := (n * 2).natAbs
  if n < 0 then base - 1 else base

/-- Translated from `denaturalize` in src/lib.rs:
`let rem = n % 2; let abs = ((n + rem) / 2) as i64; if rem == 1 { -abs } else { abs }`. -/
def denaturalize (n : Nat) : Int :=
  let rem := n % 2
  let abs : Int := ((n + rem) / 2 : Nat)
  if rem = 1 then -abs else abs

/-- Translated from `cantor_pairing` in src/lib.rs:
`(x.pow(2) + x + 2 * x * y + 3 * y + y.pow(2)) / 2` after naturalizing both
coordinates. -/
def cantor_pairing (x y : Int) : Nat :=
  let nx := naturalize x
  let ny := naturalize y
  (nx ^ 2 + nx + 2 * nx * ny + 3 * ny + ny ^ 2) / 2

/-- Translated from `cantor_unpairing` in src/lib.rs. The source recovers the
diagonal number `w` via 64-bit floating point:
`((((8 * z + 1) as f64).sqrt() - 1.0) / 2.0).floor() as u64`; here that step is
modelled with the exact integer square root `Nat.sqrt`, which is the value the
float computation approximates. -/
def cantor_unpairing (z : Nat) : Int × Int :=
  let w := (Nat.sqrt (8 * z + 1) - 1) / 2
  let t := (w ^ 2 + w) / 2
  let y := z - t
  let x := w - y
  (denaturalize x, denaturalize y)

/-- Helper: the triangular number `w (w+1) / 2`, written as in the source's
`let t = (w.pow(2) + w) / 2`. -/
def tri (w : Nat) : Nat := (w ^ 2 + w) / 2

/-- Modelled from the spec: the external bit-storage collaborator
(`bits::BitArray`, a dependency crate, not in this repository's sources),
per the interface contract of the spec's section 6: a growable sequence of
boolean flags addressed by non-negative position. -/
structure BitArray where
  bits : List Bool
deriving DecidableEq

/-- Modelled from the spec: default construction "produces a zero-length
storage, all bits conceptually off". -/
def BitArray.empty : BitArray := ⟨[]⟩

/-- Modelled from the spec: `len` is the "current addressable bit count". -/
def BitArray.len (b : BitArray) : Nat := b.bits.length

/-- Modelled from the spec: `is_set(index)` "returns current value at index";
positions beyond the length read as off. -/
def BitArray.is_set (b : BitArray) (i : Nat) : Bool := b.bits.getD i false

/-- Modelled from the spec: `set(index, boolean)` "sets bit at index to the
given value; must transparently grow storage if index >= current length". -/
def BitArray.set (b : BitArray) (i : Nat) (v : Bool) : BitArray :=
  if i < b.bits.length then ⟨b.bits.set i v⟩
  else ⟨b.bits ++ List.replicate (i - b.bits.length) false ++ [v]⟩

/-- Modelled from the spec: `count_bits_on` is the "population count of
on-bits". -/
def BitArray.count_bits_on (b : BitArray) : Nat := b.bits.count true

/-- Helper for `BitArray.or`: pointwise or of two bit lists, the shorter one
zero-extended. -/
def orBits : List Bool → List Bool → List Bool
  | [], ys => ys
  | x :: xs, [] => x :: xs
  | x :: xs, y :: ys => (x || y) :: orBits xs ys

/-- Modelled from the spec: "bitwise OR of two instances: zero-extends the
shorter operand; result length = max of the two input lengths". -/
def BitArray.or (a b : BitArray) : BitArray := ⟨orBits a.bits b.bits⟩

/-- Translated from `PointSet` in src/lib.rs: a set of integer points backed
by one bit array. -/
structure PointSet where
  members : BitArray
deriving DecidableEq

/-- Translated from the derived `Default` of `PointSet` in src/lib.rs. -/
def PointSet.empty : PointSet := ⟨BitArray.empty⟩

/-- Translated from `PointSet::insert` in src/lib.rs:
`self.members.set(cantor_pairing(x, y), true)`. Rust mutates `self` in place;
modelled here by returning the updated set. -/
def PointSet.insert (s : PointSet) (x y : Int) : PointSet :=
  ⟨s.members.set (cantor_pairing x y) true⟩

/-- Translated from `PointSet::contains` in src/lib.rs:
`let index = cantor_pairing(x, y); index < self.members.len() && self.members.is_set(index)`. -/
def PointSet.contains (s : PointSet) (x y : Int) : Bool :=
  let index := cantor_pairing x y
  decide (index < s.members.len) && s.members.is_set index

/-- Translated from `PointSet::len` in src/lib.rs:
`self.members.count_bits_on()`. -/
def PointSet.len (s : PointSet) : Nat := s.members.count_bits_on

/-- Translated from `PointSet::union` in src/lib.rs:
`Self { members: &self.members | &other.members }`. Takes both operands by
shared reference in Rust, so neither is mutated. -/
def PointSet.union (s other : PointSet) : PointSet :=
  ⟨s.members.or other.members⟩

/-- Translated from `PointSet::iter` in src/lib.rs:
`self.members.iter().enumerate().filter(|(_, t)| *t).map(|(i, _)| cantor_unpairing(i as u64))`. -/
def PointSet.iter (s : PointSet) : List (Int × Int) :=
  ((s.members.bits.enum.filter fun p => p.2).map fun p => cantor_unpairing p.1)

/-- Helper: fold `insert` over a list of coordinate pairs, modelling a
sequence of `insert` calls on an initially given set. -/
def PointSet.insertAll (s : PointSet) (l : List (Int × Int)) : PointSet :=
  l.foldl (fun t p => t.insert p.1 p.2) s

/-- Smallest value of the Rust `i64` type. -/
def i64Min : Int := -(2 ^ 63)

/-- Largest value of the Rust `i64` type. -/
def i64Max : Int := 2 ^ 63 - 1

/-- Helper for the machine-arithmetic models: a `u64` intermediate value;
`none` where the value does not fit in 64 bits, which in a Rust debug build is
an overflow panic. -/
def chkU64 (v : Nat) : Option Nat :=
  if v < 2 ^ 64 then some v else none

/-- Machine-arithmetic model of `naturalize` in src/lib.rs: `n * 2` is an
`i64` multiplication, which overflows when the product leaves the `i64` range,
and `.abs()` panics on `i64::MIN`; the `base -= 1` step (only taken with
`base >= 1`) and the final cast to `u64` of a non-negative `i64` cannot fail.
Returns `none` exactly where the Rust debug build panics. -/
def naturalizeChecked (n : Int) : Option Nat :=
  if n * 2 < i64Min ∨ i64Max < n * 2 then none
  else if n * 2 = i64Min then none
  else some (naturalize n)

/-- Machine-arithmetic model of `cantor_pairing` in src/lib.rs: the polynomial
`x.pow(2) + x + 2 * x * y + 3 * y + y.pow(2)` is evaluated in `u64` left to
right, each product and each partial sum checked against 64 bits. -/
def cantor_pairingChecked (xi yi : Int) : Option Nat := do
  let x ← naturalizeChecked xi
  let y ← naturalizeChecked yi
  let a ← chkU64 (x ^ 2)
  let b ← chkU64 (a + x)
  let c ← chkU64 (2 * x)
  let d ← chkU64 (c * y)
  let e ← chkU64 (b + d)
  let f ← chkU64 (3 * y)
  let g ← chkU64 (e + f)
  let h ← chkU64 (y ^ 2)
  let s ← chkU64 (g + h)
  pure (s / 2)

/-- Machine-arithmetic model of `cantor_unpairing` in src/lib.rs: `8 * z + 1`,
`w.pow(2) + w` and the two subtractions are `u64` operations, checked for
overflow and underflow; the floating-point square-root step is modelled as the
exact integer square root. -/
def cantor_unpairingChecked (z : Nat) : Option (Int × Int) := do
  let a ← chkU64 (8 * z)
  let b ← chkU64 (a + 1)
  let w := (Nat.sqrt b - 1) / 2
  let c ← chkU64 (w ^ 2)
  let d ← chkU64 (c + w)
  let t := d / 2
  let y ← if t ≤ z then some (z - t) else none
  let x ← if y ≤ w then some (w - y) else none
  pure (denaturalize x, denaturalize y)

/-- Modelled from the spec: section 4.1's exact polynomial form
`index = (nx^2 + nx + 2 nx ny + 3 ny + ny^2) / 2` over the naturalized
coordinates, stated independently of the source to compare the two. -/
def spec_pairing_formula (x y : Int) : Nat :=
  (naturalize x ^ 2 + naturalize x + 2 * naturalize x * naturalize y +
    3 * naturalize y + naturalize y ^ 2) / 2

lemma naturalize_nonneg (n : Int) (h : 0 ≤ n) : naturalize n = 2 * n.natAbs := by
  simp only [naturalize]
  rw [if_neg (by omega)]
  omega

lemma naturalize_neg (n : Int) (h : n < 0) : naturalize n = 2 * n.natAbs - 1 := by
  simp only [naturalize]
  rw [if_pos h]
  omega

lemma denaturalize_naturalize (n : Int) : denaturalize (naturalize n) = n := by
  rcases le_or_lt 0 n with h | h
  · rw [naturalize_nonneg n h]
    simp only [denaturalize, Nat.mul_mod_right]
    rw [if_neg (by omega)]
    omega
  · rw [naturalize_neg n h]
    have h1 : 1 ≤ n.natAbs := by omega
    have hodd : (2 * n.natAbs - 1) % 2 = 1 := by omega
    simp only [denaturalize, hodd]
    rw [if_pos trivial]
    omega

lemma naturalize_denaturalize (u : Nat) : naturalize (denaturalize u) = u := by
  rcases Nat.even_or_odd u with h | h
  · have h2 : u % 2 = 0 := Nat.even_iff.mp h
    simp only [denaturalize, h2]
    rw [if_neg (by omega)]
    have : (0 : Int) ≤ ((u + 0) / 2 : Nat) := Int.natCast_nonneg _
    rw [naturalize_nonneg _ this]
    omega
  · have h2 : u % 2 = 1 := Nat.odd_iff.mp h
    simp only [denaturalize, h2]
    rw [if_pos trivial]
    have hpos : 0 < (u + 1) / 2 := by omega
    have : (-(((u + 1) / 2 : Nat) : Int)) < 0 := by
      simp only [Left.neg_neg_iff]
      exact_mod_cast hpos
    rw [naturalize_neg _ (by simpa using this)]
    simp only [Int.natAbs_neg, Int.natAbs_ofNat]
    omega

lemma naturalize_injective : Function.Injective naturalize := by
  intro a b h
  have := denaturalize_naturalize a
  rw [h, denaturalize_naturalize] at this
  exact this.symm

lemma two_mul_tri (w : Nat) : 2 * tri w = w ^ 2 + w := by
  have h : w ^ 2 + w = w * (w + 1) := by ring
  have he : Even (w * (w + 1)) := Nat.even_mul_succ_self w
  have h2 : (w ^ 2 + w) % 2 = 0 := by
    rw [h]
    exact Nat.even_iff.mp he
  simp only [tri]
  omega

lemma tri_succ (w : Nat) : tri (w + 1) = tri w + (w + 1) := by
  have h1 := two_mul_tri w
  have h2 := two_mul_tri (w + 1)
  have h3 : (w + 1) ^ 2 + (w + 1) = (w ^ 2 + w) + 2 * (w + 1) := by ring
  omega

lemma cantor_pairing_eq_tri (x y : Int) :
    cantor_pairing x y = tri (naturalize x + naturalize y) + naturalize y := by
  simp only [cantor_pairing]
  set nx := naturalize x
  set ny := naturalize y
  have h1 := two_mul_tri (nx + ny)
  have h2 : (nx + ny) ^ 2 + (nx + ny) = nx ^ 2 + nx + 2 * nx * ny + 3 * ny + ny ^ 2 - 2 * ny := by
    have : (nx + ny) ^ 2 + (nx + ny) + 2 * ny = nx ^ 2 + nx + 2 * nx * ny + 3 * ny + ny ^ 2 := by
      ring
    omega
  have h3 : nx ^ 2 + nx + 2 * nx * ny + 3 * ny + ny ^ 2 = 2 * tri (nx + ny) + 2 * ny := by
    have : (nx + ny) ^ 2 + (nx + ny) + 2 * ny = nx ^ 2 + nx + 2 * nx * ny + 3 * ny + ny ^ 2 := by
      ring
    omega
  omega

lemma sqrt_recover_w (z w r : Nat) (hr : r ≤ w) (hz : z = tri w + r) :
    (Nat.sqrt (8 * z + 1) - 1) / 2 = w := by
  have ht := two_mul_tri w
  have h8 : 8 * z + 1 = 4 * w ^ 2 + 4 * w + 8 * r + 1 := by omega
  have hlo : (2 * w + 1) * (2 * w + 1) ≤ 8 * z + 1 := by
    have : (2 * w + 1) * (2 * w + 1) = 4 * w ^ 2 + 4 * w + 1 := by ring
    omega
  have hhi : 8 * z + 1 < (2 * w + 3) * (2 * w + 3) := by
    have : (2 * w + 3) * (2 * w + 3) = 4 * w ^ 2 + 12 * w + 9 := by ring
    omega
  have h1 : 2 * w + 1 ≤ Nat.sqrt (8 * z + 1) := Nat.le_sqrt.mpr hlo
  have h2 : Nat.sqrt (8 * z + 1) < 2 * w + 3 := Nat.sqrt_lt.mpr hhi
  omega

lemma tri_sqrt_bound (z : Nat) :
    tri ((Nat.sqrt (8 * z + 1) - 1) / 2) ≤ z ∧
      z < tri ((Nat.sqrt (8 * z + 1) - 1) / 2 + 1) := by
  set s := Nat.sqrt (8 * z + 1) with hs
  set w := (s - 1) / 2 with hw
  have hs1 : 1 ≤ s := Nat.le_sqrt.mpr (by omega)
  have hwle : 2 * w + 1 ≤ s ∧ s ≤ 2 * w + 2 := by omega
  have hsq : s * s ≤ 8 * z + 1 := Nat.sqrt_le _
  have hsq2 : 8 * z + 1 < (s + 1) * (s + 1) := Nat.lt_succ_sqrt _
  have ht := two_mul_tri w
  have ht1 := two_mul_tri (w + 1)
  constructor
  · have : (2 * w + 1) * (2 * w + 1) ≤ 8 * z + 1 :=
      le_trans (Nat.mul_le_mul hwle.1 hwle.1) hsq
    have hexp : (2 * w + 1) * (2 * w + 1) = 4 * w ^ 2 + 4 * w + 1 := by ring
    omega
  · have : 8 * z + 1 < (2 * w + 3) * (2 * w + 3) :=
      lt_of_lt_of_le hsq2 (Nat.mul_le_mul (by omega) (by omega))
    have hexp : (2 * w + 3) * (2 * w + 3) = 4 * w ^ 2 + 12 * w + 9 := by ring
    have hexp1 : (w + 1) ^ 2 + (w + 1) = w ^ 2 + 3 * w + 2 := by ring
    omega

lemma cantor_unpairing_cantor_pairing (x y : Int) :
    cantor_unpairing (cantor_pairing x y) = (x, y) := by
  rw [cantor_pairing_eq_tri]
  set nx := naturalize x with hnx
  set ny := naturalize y with hny
  simp only [cantor_unpairing]
  rw [sqrt_recover_w (tri (nx + ny) + ny) (nx + ny) ny (by omega) rfl]
  have htri : (nx + ny) ^ 2 + (nx + ny) = 2 * tri (nx + ny) := (two_mul_tri _).symm
  have ht : ((nx + ny) ^ 2 + (nx + ny)) / 2 = tri (nx + ny) := by omega
  rw [ht]
  have hy : tri (nx + ny) + ny - tri (nx + ny) = ny := by omega
  rw [hy]
  have hx : nx + ny - ny = nx := by omega
  rw [hx, hnx, hny, denaturalize_naturalize, denaturalize_naturalize]

lemma cantor_pairing_cantor_unpairing (z : Nat) :
    cantor_pairing (cantor_unpairing z).1 (cantor_unpairing z).2 = z := by
  obtain ⟨hlo, hhi⟩ := tri_sqrt_bound z
  simp only [cantor_unpairing]
  set w := (Nat.sqrt (8 * z + 1) - 1) / 2 with hw
  have htri : (w ^ 2 + w) / 2 = tri w := rfl
  rw [htri]
  rw [cantor_pairing_eq_tri]
  rw [naturalize_denaturalize, naturalize_denaturalize]
  have hsucc := tri_succ w
  have hyle : z - tri w ≤ w := by omega
  have hsum : w - (z - tri w) + (z - tri w) = w := by omega
  rw [hsum]
  omega

lemma cantor_pairing_injective (x y x' y' : Int)
    (h : cantor_pairing x y = cantor_pairing x' y') : x = x' ∧ y = y' := by
  have h1 := cantor_unpairing_cantor_pairing x y
  have h2 := cantor_unpairing_cantor_pairing x' y'
  rw [h, h2] at h1
  exact ⟨(Prod.mk.injEq _ _ _ _ ▸ h1).1.symm, (Prod.mk.injEq _ _ _ _ ▸ h1).2.symm⟩

lemma BitArray.len_set (b : BitArray) (i : Nat) (v : Bool) :
    (b.set i v).len = max b.len (i + 1) := by
  simp only [BitArray.set, BitArray.len]
  split
  · simp only [List.length_set]
    omega
  · simp only [List.length_append, List.length_replicate, List.length_cons,
      List.length_nil]
    omega

lemma getD_set_self (l : List Bool) (i : Nat) (v : Bool) (h : i < l.length) :
    (l.set i v).getD i false = v := by
  induction l generalizing i with
  | nil => simp at h
  | cons a l ih =>
    cases i with
    | zero => simp [List.set, List.getD]
    | succ n =>
      simp only [List.set, List.getD_cons_succ]
      exact ih n (by simpa using h)

lemma getD_set_ne (l : List Bool) (i j : Nat) (v : Bool) (h : i ≠ j) :
    (l.set i v).getD j false = l.getD j false := by
  induction l generalizing i j with
  | nil => simp [List.set]
  | cons a l ih =>
    cases i with
    | zero =>
      cases j with
      | zero => exact absurd rfl h
      | succ m => simp [List.set]
    | succ n =>
      cases j with
      | zero => simp [List.set]
      | succ m =>
        simp only [List.set, List.getD_cons_succ]
        exact ih n m (by omega)

lemma getD_append_left (l l2 : List Bool) (i : Nat) (h : i < l.length) :
    (l ++ l2).getD i false = l.getD i false := by
  induction l generalizing i with
  | nil => simp at h
  | cons a l ih =>
    cases i with
    | zero => simp
    | succ n =>
      simp only [List.cons_append, List.getD_cons_succ]
      exact ih n (by simpa using h)

lemma getD_append_right (l l2 : List Bool) (i : Nat) (h : l.length ≤ i) :
    (l ++ l2).getD i false = l2.getD (i - l.length) false := by
  induction l generalizing i with
  | nil => simp
  | cons a l ih =>
    cases i with
    | zero => simp at h
    | succ n =>
      simp only [List.cons_append, List.getD_cons_succ, List.length_cons]
      rw [ih n (by simpa using h)]
      congr 1
      omega

lemma getD_replicate_false (k i : Nat) :
    (List.replicate k false).getD i false = false := by
  induction k generalizing i with
  | zero => simp
  | succ n ih =>
    cases i with
    | zero => simp [List.replicate]
    | succ m =>
      simp only [List.replicate, List.getD_cons_succ]
      exact ih m

lemma getD_out_of_bounds (l : List Bool) (i : Nat) (h : l.length ≤ i) :
    l.getD i false = false := by
  induction l generalizing i with
  | nil => simp
  | cons a l ih =>
    cases i with
    | zero => simp at h
    | succ n =>
      simp only [List.getD_cons_succ]
      exact ih n (by simpa using h)

lemma BitArray.is_set_set_self (b : BitArray) (i : Nat) (v : Bool) :
    (b.set i v).is_set i = v := by
  simp only [BitArray.set, BitArray.is_set]
  split
  · exact getD_set_self _ _ _ (by assumption)
  · rename_i h
    rw [List.append_assoc, getD_append_right _ _ _ (by omega)]
    rw [getD_append_right _ _ _ (by simp)]
    simp only [List.length_replicate]
    have : i - b.bits.length - (i - b.bits.length) = 0 := by omega
    rw [this]
    rfl

lemma BitArray.is_set_set_ne (b : BitArray) (i j : Nat) (v : Bool) (h : i ≠ j) :
    (b.set i v).is_set j = b.is_set j := by
  simp only [BitArray.set, BitArray.is_set]
  split
  · exact getD_set_ne _ _ _ _ h
  · rename_i hge
    rcases lt_or_le j b.bits.length with hj | hj
    · rw [List.append_assoc, getD_append_left _ _ _ hj]
    · rw [getD_out_of_bounds b.bits j hj, List.append_assoc,
        getD_append_right _ _ _ hj]
      rcases lt_or_le (j - b.bits.length) (i - b.bits.length) with hc | hc
      · rw [getD_append_left _ _ _ (by simpa using hc)]
        exact getD_replicate_false _ _
      · rw [getD_append_right _ _ _ (by simpa using hc)]
        simp only [List.length_replicate]
        have hgt : 1 ≤ j - b.bits.length - (i - b.bits.length) := by omega
        exact getD_out_of_bounds _ _ (by simpa using hgt)

lemma count_true_set_lt (l : List Bool) (i : Nat) (h : i < l.length) :
    (l.set i true).count true =
      if l.getD i false then l.count true else l.count true + 1 := by
  induction l generalizing i with
  | nil => simp at h
  | cons a l ih =>
    cases i with
    | zero =>
      cases a <;> simp [List.count_cons]
    | succ n =>
      have hn : n < l.length := by simpa using h
      simp only [List.set, List.getD_cons_succ, List.count_cons, ih n hn]
      split <;> cases a <;> simp

lemma count_true_replicate_false (k : Nat) :
    (List.replicate k false).count true = 0 := by
  induction k with
  | zero => rfl
  | succ n ih => simpa [List.replicate, List.count_cons] using ih

lemma BitArray.count_set_true (b : BitArray) (i : Nat) :
    (b.set i true).count_bits_on =
      if b.is_set i then b.count_bits_on else b.count_bits_on + 1 := by
  simp only [BitArray.set, BitArray.is_set, BitArray.count_bits_on]
  split
  · exact count_true_set_lt _ _ (by assumption)
  · rename_i h
    rw [getD_out_of_bounds _ _ (by omega)]
    simp [List.count_append, count_true_replicate_false, List.count_cons]

lemma length_orBits (xs ys : List Bool) :
    (orBits xs ys).length = max xs.length ys.length := by
  induction xs generalizing ys with
  | nil => simp [orBits]
  | cons x xs ih =>
    cases ys with
    | nil => simp [orBits]
    | cons y ys =>
      simp only [orBits, List.length_cons, ih]
      omega

lemma getD_orBits (xs ys : List Bool) (i : Nat) :
    (orBits xs ys).getD i false = (xs.getD i false || ys.getD i false) := by
  induction xs generalizing ys i with
  | nil => simp [orBits]
  | cons x xs ih =>
    cases ys with
    | nil => simp [orBits]
    | cons y ys =>
      cases i with
      | zero => simp [orBits]
      | succ n => simpa [orBits] using ih ys n

lemma BitArray.len_or (a b : BitArray) : (a.or b).len = max a.len b.len :=
  length_orBits a.bits b.bits

lemma BitArray.is_set_or (a b : BitArray) (i : Nat) :
    (a.or b).is_set i = (a.is_set i || b.is_set i) :=
  getD_orBits a.bits b.bits i

lemma PointSet.contains_eq_is_set (s : PointSet) (x y : Int) :
    s.contains x y = s.members.is_set (cantor_pairing x y) := by
  simp only [PointSet.contains]
  rcases lt_or_le (cantor_pairing x y) s.members.len with h | h
  · simp [h]
  · rw [BitArray.is_set, getD_out_of_bounds _ _ h]
    simp [Nat.not_lt.mpr h]

lemma PointSet.contains_empty (x y : Int) : PointSet.empty.contains x y = false := by
  simp [PointSet.contains, PointSet.empty, BitArray.empty, BitArray.len]

lemma PointSet.contains_insert (s : PointSet) (x y x' y' : Int) :
    (s.insert x y).contains x' y' =
      (s.contains x' y' || (decide (x' = x) && decide (y' = y))) := by
  by_cases h : x' = x ∧ y' = y
  · obtain ⟨hx, hy⟩ := h
    subst hx
    subst hy
    simp only [PointSet.contains_eq_is_set, PointSet.insert]
    rw [BitArray.is_set_set_self]
    simp
  · have hne : cantor_pairing x y ≠ cantor_pairing x' y' := by
      intro hc
      exact h ⟨(cantor_pairing_injective _ _ _ _ hc).1.symm,
        (cantor_pairing_injective _ _ _ _ hc).2.symm⟩
    simp only [PointSet.contains_eq_is_set, PointSet.insert]
    rw [BitArray.is_set_set_ne _ _ _ _ hne]
    have : ¬x' = x ∨ ¬y' = y := by tauto
    rcases this with h1 | h1 <;> simp [h1]

lemma PointSet.len_insert (s : PointSet) (x y : Int) :
    (s.insert x y).len = if s.contains x y then s.len else s.len + 1 := by
  simp only [PointSet.insert, PointSet.len, PointSet.contains_eq_is_set]
  exact BitArray.count_set_true s.members (cantor_pairing x y)

lemma PointSet.insertAll_append_singleton (s : PointSet) (l : List (Int × Int))
    (p : Int × Int) :
    s.insertAll (l ++ [p]) = (s.insertAll l).insert p.1 p.2 := by
  simp [PointSet.insertAll, List.foldl_append]

lemma PointSet.contains_insertAll (s : PointSet) (l : List (Int × Int)) (x y : Int) :
    (s.insertAll l).contains x y = (s.contains x y || decide ((x, y) ∈ l)) := by
  induction l generalizing s with
  | nil => simp [PointSet.insertAll]
  | cons q l ih =>
    simp only [PointSet.insertAll, List.foldl_cons]
    have hstep := ih (s.insert q.1 q.2)
    simp only [PointSet.insertAll] at hstep
    rw [hstep, PointSet.contains_insert]
    by_cases h1 : x = q.1 <;> by_cases h2 : y = q.2 <;>
      by_cases h3 : (x, y) ∈ l <;>
      simp [h1, h2, h3, List.mem_cons, Prod.ext_iff]

lemma PointSet.len_insertAll_empty (l : List (Int × Int)) :
    (PointSet.empty.insertAll l).len = l.toFinset.card := by
  induction l using List.reverseRecOn with
  | nil =>
    simp [PointSet.insertAll, PointSet.len, PointSet.empty, BitArray.empty,
      BitArray.count_bits_on]
  | append_singleton l p ih =>
    obtain ⟨a, b⟩ := p
    rw [PointSet.insertAll_append_singleton, PointSet.len_insert,
      PointSet.contains_insertAll]
    simp only [PointSet.contains_empty, Bool.false_or]
    rw [List.toFinset_append]
    simp only [List.toFinset_cons, List.toFinset_nil, insert_emptyc_eq]
    rw [Finset.union_comm, ← Finset.insert_eq]
    by_cases hp : (a, b) ∈ l
    · rw [if_pos (by simpa using hp), ih,
        Finset.insert_eq_self.mpr (by simpa using hp)]
    · rw [if_neg (by simpa using hp), ih,
        Finset.card_insert_of_not_mem (by simpa using hp)]

lemma fst_le_of_mem_enumFrom {α : Type} {p : Nat × α} {n : Nat} {l : List α}
    (h : p ∈ l.enumFrom n) : n ≤ p.1 := by
  induction l generalizing n with
  | nil => simp [List.enumFrom] at h
  | cons a l ih =>
    simp only [List.enumFrom, List.mem_cons] at h
    rcases h with h | h
    · subst h
      exact le_refl n
    · exact le_trans (Nat.le_succ n) (ih h)

lemma pairwise_fst_lt_enumFrom {α : Type} (n : Nat) (l : List α) :
    (l.enumFrom n).Pairwise fun a b => a.1 < b.1 := by
  induction l generalizing n with
  | nil => simp [List.enumFrom]
  | cons a l ih =>
    simp only [List.enumFrom]
    refine List.Pairwise.cons ?_ (ih (n + 1))
    intro b hb
    exact lt_of_lt_of_le (Nat.lt_succ_self n) (fst_le_of_mem_enumFrom hb)

lemma length_filter_enumFrom (l : List Bool) (n : Nat) :
    ((l.enumFrom n).filter fun p => p.2).length = l.count true := by
  induction l generalizing n with
  | nil => simp [List.enumFrom]
  | cons a l ih =>
    cases a <;>
      simp [List.enumFrom, List.filter, List.count_cons, ih (n + 1)]

lemma getD_true_iff (l : List Bool) (i : Nat) :
    l.getD i false = true ↔ l[i]? = some true := by
  rw [List.getD_eq_getElem?_getD]
  cases h : l[i]? with
  | none => simp
  | some b => cases b <;> simp

lemma mem_iter_iff (s : PointSet) (p : Int × Int) :
    p ∈ s.iter ↔ ∃ i, s.members.is_set i = true ∧ cantor_unpairing i = p := by
  simp only [PointSet.iter, List.mem_map, List.mem_filter]
  constructor
  · rintro ⟨⟨i, b⟩, ⟨hmem, hb⟩, rfl⟩
    simp only at hb
    subst hb
    refine ⟨i, ?_, rfl⟩
    have hg := List.mk_mem_enum_iff_getElem?.mp hmem
    rw [BitArray.is_set, getD_true_iff]
    exact hg
  · rintro ⟨i, hset, rfl⟩
    rw [BitArray.is_set, getD_true_iff] at hset
    exact ⟨(i, true), ⟨List.mk_mem_enum_iff_getElem?.mpr hset, rfl⟩, rfl⟩

lemma mem_iter_iff_contains (s : PointSet) (p : Int × Int) :
    p ∈ s.iter ↔ s.contains p.1 p.2 = true := by
  rw [mem_iter_iff]
  constructor
  · rintro ⟨i, hset, rfl⟩
    rw [PointSet.contains_eq_is_set, cantor_pairing_cantor_unpairing]
    exact hset
  · intro h
    refine ⟨cantor_pairing p.1 p.2, ?_, ?_⟩
    · rwa [PointSet.contains_eq_is_set] at h
    · have := cantor_unpairing_cantor_pairing p.1 p.2
      simpa using this

lemma iter_length (s : PointSet) : s.iter.length = s.len := by
  simp only [PointSet.iter, List.length_map, PointSet.len, BitArray.count_bits_on]
  exact length_filter_enumFrom s.members.bits 0

lemma iter_pairwise (s : PointSet) :
    s.iter.Pairwise fun p q => cantor_pairing p.1 p.2 < cantor_pairing q.1 q.2 := by
  simp only [PointSet.iter]
  rw [List.pairwise_map]
  refine List.Pairwise.imp ?_ ((pairwise_fst_lt_enumFrom 0 s.members.bits).filter _)
  intro a b h
  simpa [cantor_pairing_cantor_unpairing] using h

lemma iter_nodup (s : PointSet) : s.iter.Nodup := by
  refine List.Pairwise.imp ?_ (iter_pairwise s)
  intro a b h hab
  rw [hab] at h
  exact lt_irrefl _ h

lemma naturalize_le_two_natAbs (n : Int) : naturalize n ≤ 2 * n.natAbs := by
  have habs : (n * 2).natAbs = n.natAbs * 2 := by
    rw [Int.natAbs_mul]
    rfl
  simp only [naturalize, habs]
  split <;> omega

lemma naturalizeChecked_eq_some (n : Int) (h : n.natAbs ≤ 2 ^ 62 - 1) :
    naturalizeChecked n = some (naturalize n) := by
  simp only [naturalizeChecked, i64Min, i64Max]
  rw [if_neg (by omega), if_neg (by omega)]

lemma cantor_pairingChecked_eq_some (x y : Int)
    (hx : x.natAbs ≤ 2 ^ 30 - 1) (hy : y.natAbs ≤ 2 ^ 30 - 1) :
    cantor_pairingChecked x y = some (cantor_pairing x y) := by
  have hnx : naturalize x ≤ 2 ^ 31 - 2 :=
    le_trans (naturalize_le_two_natAbs x) (by omega)
  have hny : naturalize y ≤ 2 ^ 31 - 2 :=
    le_trans (naturalize_le_two_natAbs y) (by omega)
  set nx := naturalize x with hnxdef
  set ny := naturalize y with hnydef
  have hsum : nx ^ 2 + nx + 2 * nx * ny + 3 * ny + ny ^ 2 < 2 ^ 64 := by
    have hle : nx ^ 2 + nx + 2 * nx * ny + 3 * ny + ny ^ 2 ≤
        (2 ^ 31 - 2 : Nat) ^ 2 + (2 ^ 31 - 2) + 2 * (2 ^ 31 - 2) * (2 ^ 31 - 2) +
          3 * (2 ^ 31 - 2) + (2 ^ 31 - 2 : Nat) ^ 2 := by
      gcongr
    refine lt_of_le_of_lt hle (by norm_num)
  have l1 : nx ^ 2 < 2 ^ 64 := by omega
  have l2 : nx ^ 2 + nx < 2 ^ 64 := by omega
  have l3 : 2 * nx < 2 ^ 64 := by omega
  have l4 : 2 * nx * ny < 2 ^ 64 := by omega
  have l5 : nx ^ 2 + nx + 2 * nx * ny < 2 ^ 64 := by omega
  have l6 : 3 * ny < 2 ^ 64 := by omega
  have l7 : nx ^ 2 + nx + 2 * nx * ny + 3 * ny < 2 ^ 64 := by omega
  have l8 : ny ^ 2 < 2 ^ 64 := by omega
  rw [cantor_pairingChecked, naturalizeChecked_eq_some x (by omega),
    naturalizeChecked_eq_some y (by omega)]
  simp only [chkU64, ← hnxdef, ← hnydef, if_pos l1, if_pos l2, if_pos l3,
    if_pos l4, if_pos l5, if_pos l6, if_pos l7, if_pos l8, if_pos hsum,
    Option.bind_eq_bind, Option.some_bind, Option.pure_def]
  rfl

/-- Claim C1 (amended): with exact integer arithmetic (the floating-point
square-root step modelled as the exact integer square root, and no 64-bit
width limit), `cantor_unpairing` inverts `cantor_pairing` on every coordinate
pair, `cantor_pairing` inverts `cantor_unpairing` on every index, and the
recovered diagonal number `w` is exactly the largest `w` with
`w (w+1) / 2 <= index`. The original claim over the full representable `u64`
range fails: see the counterexample, where `8 * z + 1` overflows. -/
theorem claim_C1 (x y : Int) (z : Nat) :
    cantor_unpairing (cantor_pairing x y) = (x, y) ∧
    cantor_pairing (cantor_unpairing z).1 (cantor_unpairing z).2 = z ∧
    tri ((Nat.sqrt (8 * z + 1) - 1) / 2) ≤ z ∧
    z < tri ((Nat.sqrt (8 * z + 1) - 1) / 2 + 1) :=
  ⟨cantor_unpairing_cantor_pairing x y, cantor_pairing_cantor_unpairing z,
    (tri_sqrt_bound z).1, (tri_sqrt_bound z).2⟩

/-- Claim C1, counterexample to the original statement: the index `2 ^ 61` is
representable in `u64`, yet `cantor_unpairing` panics on it in a debug build
(`8 * z + 1` overflows `u64`), so `Pair(Unpair(i)) = i` cannot hold there. -/
theorem claim_C1_counterexample :
    cantor_unpairingChecked (2 ^ 61) = none ∧ (2 ^ 61 : Nat) < 2 ^ 64 :=
  ⟨by decide, by decide⟩

/-- Claim C2 (amended): `cantor_pairing` is total and panic-free for
coordinates of magnitude at most `2 ^ 30 - 1`; within that range the checked
machine computation completes and returns the mathematical (non-negative)
index. For larger magnitudes the `i64`/`u64` arithmetic can overflow: see the
counterexample. -/
theorem claim_C2 (x y : Int) (hx : x.natAbs ≤ 2 ^ 30 - 1)
    (hy : y.natAbs ≤ 2 ^ 30 - 1) :
    cantor_pairingChecked x y = some (cantor_pairing x y) :=
  cantor_pairingChecked_eq_some x y hx hy

/-- Claim C2, witness for the amended theorem at (5, -7). -/
theorem claim_C2_witness :
    (5 : Int).natAbs ≤ 2 ^ 30 - 1 ∧ (-7 : Int).natAbs ≤ 2 ^ 30 - 1 ∧
      cantor_pairingChecked 5 (-7) = some (cantor_pairing 5 (-7)) :=
  ⟨by decide, by decide, claim_C2 5 (-7) (by decide) (by decide)⟩

/-- Claim C2, counterexample to the original statement: `x = 2 ^ 62` is a
valid `i64` coordinate, yet `naturalize` (and hence `cantor_pairing`) panics
on it in a debug build, because `n * 2` overflows `i64`. -/
theorem claim_C2_counterexample :
    cantor_pairingChecked (2 ^ 62) 0 = none ∧
      i64Min ≤ (2 ^ 62 : Int) ∧ (2 ^ 62 : Int) ≤ i64Max :=
  ⟨by decide, by decide, by decide⟩

/-- Claim C3: union is exactly set union — a point is in `a.union b` iff it is
in `a` or in `b`. Non-mutation of the operands holds by construction: the Rust
`union` takes both operands by shared reference, and the embedding is a pure
function of both. -/
theorem claim_C3 (a b : PointSet) (x y : Int) :
    (a.union b).contains x y = (a.contains x y || b.contains x y) := by
  simp only [PointSet.contains_eq_is_set, PointSet.union]
  exact BitArray.is_set_or a.members b.members (cantor_pairing x y)

/-- Claim C4: iteration is complete and index-ordered — `iter` has length
`len`, contains a pair iff the set contains it, has no duplicates, is strictly
ascending in pairing index, and over a set built by inserting the pairs of any
list `l` it produces exactly the pairs of `l`. -/
theorem claim_C4 (s : PointSet) (l : List (Int × Int)) (p q : Int × Int) :
    s.iter.length = s.len ∧
    (p ∈ s.iter ↔ s.contains p.1 p.2 = true) ∧
    s.iter.Nodup ∧
    s.iter.Pairwise (fun a b => cantor_pairing a.1 a.2 < cantor_pairing b.1 b.2) ∧
    (q ∈ (PointSet.empty.insertAll l).iter ↔ q ∈ l) := by
  refine ⟨iter_length s, mem_iter_iff_contains s p, iter_nodup s,
    iter_pairwise s, ?_⟩
  rw [mem_iter_iff_contains, PointSet.contains_insertAll]
  simp [PointSet.contains_empty]

/-- Claim C5: `contains` is a total pure query — it returns false when the
pairing index is at or beyond the current storage length and otherwise the
stored bit at that index. It never grows the storage: the embedding returns a
`Bool` and leaves the set untouched, as the Rust `contains` takes `&self`. -/
theorem claim_C5 (s : PointSet) (x y : Int) :
    s.contains x y =
      if cantor_pairing x y < s.members.len then
        s.members.is_set (cantor_pairing x y)
      else false := by
  rw [PointSet.contains_eq_is_set]
  split
  · rfl
  · rename_i h
    simp only [BitArray.len] at h
    simp only [BitArray.is_set]
    exact getD_out_of_bounds _ _ (by omega)

/-- Claim C6: cardinality tracks distinct insertions — a fresh set has
`len = 0`, and after inserting the pairs of any list (any order, repetitions
allowed) `len` equals the number of distinct pairs in the list. -/
theorem claim_C6 (l : List (Int × Int)) :
    PointSet.empty.len = 0 ∧ (PointSet.empty.insertAll l).len = l.dedup.length := by
  refine ⟨rfl, ?_⟩
  rw [PointSet.len_insertAll_empty, List.card_toFinset]

/-- Claim C7: insertion is idempotent — inserting the same pair twice yields
the same cardinality and the same membership answers as inserting it once. -/
theorem claim_C7 (s : PointSet) (x y : Int) :
    ((s.insert x y).insert x y).len = (s.insert x y).len ∧
    ∀ x' y' : Int,
      ((s.insert x y).insert x y).contains x' y' = (s.insert x y).contains x' y' := by
  constructor
  · have hc : (s.insert x y).contains x y = true := by
      rw [PointSet.contains_insert]
      simp
    rw [PointSet.len_insert, if_pos hc]
  · intro x' y'
    rw [PointSet.contains_insert ((s).insert x y), PointSet.contains_insert]
    cases h : (decide (x' = x) && decide (y' = y)) <;> simp [h]

/-- Claim C8: `naturalize` is the zig-zag encoding (`2 n` for `n >= 0`,
`2 |n| - 1` for `n < 0`, mapping 0, -1, 1, -2, 2 to 0, 1, 2, 3, 4) and
`denaturalize` is its exact inverse. -/
theorem claim_C8 (n : Int) :
    ((naturalize n : Int) = if 0 ≤ n then 2 * n else 2 * |n| - 1) ∧
    denaturalize (naturalize n) = n ∧
    naturalize 0 = 0 ∧ naturalize (-1) = 1 ∧ naturalize 1 = 2 ∧
    naturalize (-2) = 3 ∧ naturalize 2 = 4 := by
  refine ⟨?_, denaturalize_naturalize n, by decide, by decide, by decide,
    by decide, by decide⟩
  rcases le_or_lt 0 n with h | h
  · rw [if_pos h, naturalize_nonneg n h]
    omega
  · rw [if_neg (by omega), naturalize_neg n h, abs_of_neg h]
    omega

/-- Claim C9: the pairing polynomial matches the spec's revised variant
`(nx^2 + nx + 2 nx ny + 3 ny + ny^2) / 2` over the naturalized coordinates,
with the fixed vectors `Pair(0,0) = 0` and `Pair(0,1) = 5`. -/
theorem claim_C9 (x y : Int) :
    cantor_pairing x y = spec_pairing_formula x y ∧
    cantor_pairing 0 0 = 0 ∧ cantor_pairing 0 1 = 5 :=
  ⟨rfl, by decide, by decide⟩

/-- Claim C10: insert leaves all other memberships unchanged — for any pair
distinct from the inserted one, `contains` answers the same before and after
the insert. -/
theorem claim_C10 (s : PointSet) (x y x' y' : Int) (h : (x', y') ≠ (x, y)) :
    (s.insert x y).contains x' y' = s.contains x' y' := by
  rw [PointSet.contains_insert]
  have hne : ¬x' = x ∨ ¬y' = y := by
    by_contra hc
    push_neg at hc
    exact h (by rw [hc.1, hc.2])
  rcases hne with h1 | h1 <;> simp [h1]

/-- Claim C10, witness at a set containing (1, 2), inserting (0, 0) and
querying (1, 1). -/
theorem claim_C10_witness :
    ((1, 1) : Int × Int) ≠ (0, 0) ∧
      ((PointSet.empty.insert 1 2).insert 0 0).contains 1 1 =
        (PointSet.empty.insert 1 2).contains 1 1 :=
  ⟨by decide, claim_C10 (PointSet.empty.insert 1 2) 0 0 1 1 (by decide)⟩
